import Mathlib

/-!
Shallow embedding of the argon2id password-hashing package (argon2id.go).

Strings are modelled as `List Char`, byte slices as `List Nat` with the
invariant that every element is `< 256`.  The external KDF
(`golang.org/x/crypto/argon2.IDKey`) is an external collaborator of the
package: it is embedded as a function parameter `kdf : KDF`, constrained
where needed by the contract of spec section 6 (deterministic, output
length equal to the requested `outputLength`, output made of bytes).
-/

namespace Argon2id

/-- Decimal digit characters produced by integer formatting (`fmt` verb `%d`). -/
def digitChar : Nat → Char
  | 0 => '0'
  | 1 => '1'
  | 2 => '2'
  | 3 => '3'
  | 4 => '4'
  | 5 => '5'
  | 6 => '6'
  | 7 => '7'
  | 8 => '8'
  | 9 => '9'
  | _ => '*'

/-- Decimal formatting of a nonnegative integer, as `fmt.Sprintf` verb `%d`
produces it (most significant digit first, no sign, no leading zeros). -/
def natToChars (n : Nat) : List Char :=
  if _h : n < 10 then [digitChar n]
  else natToChars (n / 10) ++ [digitChar (n % 10)]
termination_by n
decreasing_by exact Nat.div_lt_self (by omega) (by omega)

/-- A character is an ASCII decimal digit (the digit set of `fmt`'s base-10
integer scanning). -/
def isDigit (c : Char) : Bool := 48 ≤ c.toNat && c.toNat ≤ 57

/-- Numeric value of a run of decimal digit characters (the conversion
`strconv` applies to the token collected by `fmt`'s scanner). -/
def digitsToNat (ds : List Char) : Nat :=
  ds.foldl (fun acc c => acc * 10 + (c.toNat - 48)) 0

/-- A base-10 integer token scan, as `fmt.Sscanf`'s `%d` collects it for an
unsigned operand: take the maximal leading run of decimal digits, fail when
it is empty, fail when the value does not fit the operand's range
(`strconv.ParseUint` range error); return the value and the unconsumed rest
of the input. -/
def scanUintFrom (s : List Char) (bound : Nat) : Option (Nat × List Char) :=
  let ds := s.takeWhile isDigit
  if ds = [] then none
  else if digitsToNat ds < bound then some (digitsToNat ds, s.dropWhile isDigit)
  else none

theorem digitChar_toNat : ∀ d, d < 10 → (digitChar d).toNat = 48 + d := by decide

theorem isDigit_digitChar : ∀ d, d < 10 → isDigit (digitChar d) = true := by decide

theorem natToChars_ne_nil (n : Nat) : natToChars n ≠ [] := by
  unfold natToChars
  split <;> simp

theorem natToChars_all_digits (n : Nat) : ∀ c ∈ natToChars n, isDigit c = true := by
  induction n using natToChars.induct with
  | case1 n h =>
    rw [natToChars, dif_pos h]
    intro c hc
    rw [List.mem_singleton] at hc
    exact hc ▸ isDigit_digitChar n h
  | case2 n h ih =>
    rw [natToChars, dif_neg h]
    intro c hc
    rcases List.mem_append.mp hc with h1 | h2
    · exact ih c h1
    · rw [List.mem_singleton] at h2
      exact h2 ▸ isDigit_digitChar (n % 10) (Nat.mod_lt _ (by omega))

theorem digitsToNat_natToChars (n : Nat) : digitsToNat (natToChars n) = n := by
  induction n using natToChars.induct with
  | case1 n h =>
    rw [natToChars, dif_pos h]
    simp [digitsToNat, digitChar_toNat n h]
  | case2 n h ih =>
    rw [natToChars, dif_neg h]
    unfold digitsToNat at ih ⊢
    rw [List.foldl_append]
    simp only [List.foldl_cons, List.foldl_nil, ih]
    rw [digitChar_toNat (n % 10) (Nat.mod_lt _ (by omega))]
    omega

/-- The first character of the rest of the input, when there is one, does not
satisfy `p` (so a maximal `p`-run ends exactly there). -/
def headNotSat (p : Char → Bool) : List Char → Prop
  | [] => True
  | c :: _ => p c = false

theorem takeWhile_append_of_all {p : Char → Bool} (ds rest : List Char)
    (h : ∀ c ∈ ds, p c = true) (h2 : headNotSat p rest) :
    (ds ++ rest).takeWhile p = ds ∧ (ds ++ rest).dropWhile p = rest := by
  induction ds with
  | nil =>
    simp only [List.nil_append]
    cases rest with
    | nil => simp
    | cons c cs =>
      simp only [headNotSat] at h2
      simp [List.takeWhile, List.dropWhile, h2]
  | cons d ds ih =>
    have hd : p d = true := h d (List.mem_cons_self d ds)
    have hds : ∀ c ∈ ds, p c = true := fun c hc => h c (List.mem_cons_of_mem d hc)
    obtain ⟨ht, hdrop⟩ := ih hds
    simp [List.takeWhile, List.dropWhile, hd, ht, hdrop]

theorem scanUintFrom_append (ds rest : List Char) (bound : Nat)
    (hne : ds ≠ []) (hdig : ∀ c ∈ ds, isDigit c = true) (hrest : headNotSat isDigit rest)
    (hb : digitsToNat ds < bound) :
    scanUintFrom (ds ++ rest) bound = some (digitsToNat ds, rest) := by
  obtain ⟨ht, hd⟩ := takeWhile_append_of_all ds rest hdig hrest
  unfold scanUintFrom
  simp only [ht, hd, if_neg hne, if_pos hb]

theorem scanUintFrom_natToChars (n : Nat) (rest : List Char) (bound : Nat)
    (hrest : headNotSat isDigit rest) (hb : n < bound) :
    scanUintFrom (natToChars n ++ rest) bound = some (n, rest) := by
  have := scanUintFrom_append (natToChars n) rest bound (natToChars_ne_nil n)
    (natToChars_all_digits n) hrest (by rw [digitsToNat_natToChars]; exact hb)
  rw [this, digitsToNat_natToChars]

/-! ## Base64 (encoding/base64, `RawStdEncoding` with `Strict()` decoding)

The standard alphabet, no padding.  Strict decoding rejects characters
outside the alphabet, a trailing quantum of one character, and non-zero
unused trailing bits; carriage returns and newlines are skipped before
decoding, as `encoding/base64` specifies. -/

/-- The standard base64 alphabet, as the character at each 6-bit index. -/
def stdAlphabetChars : List Char :=
  "ABCDEFGHIJKLMNOPQRSTUVWXYZabcdefghijklmnopqrstuvwxyz0123456789+/".data

/-- Character encoding a 6-bit value under the standard base64 alphabet. -/
def charOfSextet (n : Nat) : Char := stdAlphabetChars.getD n 'A'

/-- The 6-bit value a character decodes to under the standard base64
alphabet (`none` for characters outside the alphabet). -/
def sextetOfChar (c : Char) : Option Nat :=
  let n := c.toNat
  if 65 ≤ n ∧ n ≤ 90 then some (n - 65)
  else if 97 ≤ n ∧ n ≤ 122 then some (n - 97 + 26)
  else if 48 ≤ n ∧ n ≤ 57 then some (n - 48 + 52)
  else if n = 43 then some 62
  else if n = 47 then some 63
  else none

/-- Byte groups of three become four sextets; a final group of two bytes
becomes three sextets and a final single byte becomes two, with the unused
low bits zero (unpadded encoding). -/
def encodeSextets : List Nat → List Nat
  | b0 :: b1 :: b2 :: rest =>
    b0 / 4 :: (b0 % 4 * 16 + b1 / 16) :: (b1 % 16 * 4 + b2 / 64) :: b2 % 64 ::
      encodeSextets rest
  | [b0, b1] => [b0 / 4, b0 % 4 * 16 + b1 / 16, b1 % 16 * 4]
  | [b0] => [b0 / 4, b0 % 4 * 16]
  | [] => []

/-- Unpadded standard base64 encoding of a byte sequence
(`base64.RawStdEncoding.EncodeToString`). -/
def encodeB64 (bs : List Nat) : List Char := (encodeSextets bs).map charOfSextet

/-- Sextet groups of four become three bytes; a trailing group of three
sextets yields two bytes and a trailing group of two yields one, in both
cases only when the unused trailing bits are zero (strict decoding); a
trailing group of one sextet is corrupt input. -/
def decodeSextets : List Nat → Option (List Nat)
  | s0 :: s1 :: s2 :: s3 :: rest =>
    (decodeSextets rest).map
      (fun tail => (s0 * 4 + s1 / 16) :: (s1 % 16 * 16 + s2 / 4) :: (s2 % 4 * 64 + s3) :: tail)
  | [s0, s1, s2] =>
    if s2 % 4 = 0 then some [s0 * 4 + s1 / 16, s1 % 16 * 16 + s2 / 4] else none
  | [s0, s1] => if s1 % 16 = 0 then some [s0 * 4 + s1 / 16] else none
  | [_] => none
  | [] => some []

/-- Carriage return. -/
def crChar : Char := Char.ofNat 13

/-- Line feed. -/
def lfChar : Char := Char.ofNat 10

/-- base64 decoding ignores carriage returns and newlines in its input. -/
def stripNewlines (s : List Char) : List Char :=
  s.filter (fun c => !(c == crChar || c == lfChar))

/-- Decode every character of the input to its 6-bit value, failing on the
first character outside the alphabet. -/
def sextetsOfChars : List Char → Option (List Nat)
  | [] => some []
  | c :: rest =>
    match sextetOfChar c, sextetsOfChars rest with
    | some v, some vs => some (v :: vs)
    | _, _ => none

/-- Strict unpadded standard base64 decoding of a string
(`base64.RawStdEncoding.Strict().DecodeString`). -/
def decodeB64 (s : List Char) : Option (List Nat) :=
  match sextetsOfChars (stripNewlines s) with
  | none => none
  | some sx => decodeSextets sx

theorem encodeSextets_lt64 (bs : List Nat) (h : ∀ b ∈ bs, b < 256) :
    ∀ x ∈ encodeSextets bs, x < 64 := by
  induction bs using encodeSextets.induct with
  | case1 b0 b1 b2 rest ih =>
    have h0 := h b0 (by simp)
    have h1 := h b1 (by simp)
    have h2 := h b2 (by simp)
    have hrest : ∀ b ∈ rest, b < 256 := fun b hb => h b (by simp [hb])
    rw [encodeSextets]
    intro x hx
    rcases hx with _ | ⟨_, _ | ⟨_, _ | ⟨_, _ | ⟨_, hmem⟩⟩⟩⟩
    · omega
    · omega
    · omega
    · omega
    · exact ih hrest x hmem
  | case2 b0 b1 =>
    have h0 := h b0 (by simp)
    have h1 := h b1 (by simp)
    rw [encodeSextets]
    intro x hx
    rcases hx with _ | ⟨_, _ | ⟨_, _ | ⟨_, hmem⟩⟩⟩ <;> first | omega | cases hmem
  | case3 b0 =>
    have h0 := h b0 (by simp)
    rw [encodeSextets]
    intro x hx
    rcases hx with _ | ⟨_, _ | ⟨_, hmem⟩⟩ <;> first | omega | cases hmem
  | case4 => rw [encodeSextets]; intro x hx; cases hx

theorem decodeSextets_encodeSextets (bs : List Nat) (h : ∀ b ∈ bs, b < 256) :
    decodeSextets (encodeSextets bs) = some bs := by
  induction bs using encodeSextets.induct with
  | case1 b0 b1 b2 rest ih =>
    have h0 := h b0 (by simp)
    have h1 := h b1 (by simp)
    have h2 := h b2 (by simp)
    have hrest : ∀ b ∈ rest, b < 256 := fun b hb => h b (by simp [hb])
    rw [encodeSextets, decodeSextets, ih hrest]
    have e0 : b0 / 4 * 4 + (b0 % 4 * 16 + b1 / 16) / 16 = b0 := by omega
    have e1 : (b0 % 4 * 16 + b1 / 16) % 16 * 16 + (b1 % 16 * 4 + b2 / 64) / 4 = b1 := by
      omega
    have e2 : (b1 % 16 * 4 + b2 / 64) % 4 * 64 + b2 % 64 = b2 := by omega
    simp only [Option.map_some']
    rw [e0, e1, e2]
  | case2 b0 b1 =>
    have h0 := h b0 (by simp)
    have h1 := h b1 (by simp)
    rw [encodeSextets, decodeSextets]
    have hz : b1 % 16 * 4 % 4 = 0 := by omega
    rw [if_pos hz]
    have e0 : b0 / 4 * 4 + (b0 % 4 * 16 + b1 / 16) / 16 = b0 := by omega
    have e1 : (b0 % 4 * 16 + b1 / 16) % 16 * 16 + b1 % 16 * 4 / 4 = b1 := by omega
    rw [e0, e1]
  | case3 b0 =>
    have h0 := h b0 (by simp)
    rw [encodeSextets, decodeSextets]
    have hz : b0 % 4 * 16 % 16 = 0 := by omega
    rw [if_pos hz]
    have e0 : b0 / 4 * 4 + b0 % 4 * 16 / 16 = b0 := by omega
    rw [e0]
  | case4 => rfl

theorem sextetOfChar_charOfSextet : ∀ n, n < 64 → sextetOfChar (charOfSextet n) = some n := by
  decide

theorem charOfSextet_not_newline :
    ∀ n, n < 64 → (charOfSextet n == crChar || charOfSextet n == lfChar) = false := by
  decide

theorem stripNewlines_of_sextets (l : List Nat) (h : ∀ x ∈ l, x < 64) :
    stripNewlines (l.map charOfSextet) = l.map charOfSextet := by
  unfold stripNewlines
  rw [List.filter_eq_self]
  intro c hc
  rcases List.mem_map.mp hc with ⟨x, hx, rfl⟩
  rw [charOfSextet_not_newline x (h x hx)]
  rfl

theorem sextetsOfChars_map (l : List Nat) (h : ∀ x ∈ l, x < 64) :
    sextetsOfChars (l.map charOfSextet) = some l := by
  induction l with
  | nil => rfl
  | cons x xs ih =>
    have hx := h x (by simp)
    have hxs : ∀ y ∈ xs, y < 64 := fun y hy => h y (by simp [hy])
    rw [List.map_cons, sextetsOfChars, sextetOfChar_charOfSextet x hx, ih hxs]

theorem decodeB64_encodeB64 (bs : List Nat) (h : ∀ b ∈ bs, b < 256) :
    decodeB64 (encodeB64 bs) = some bs := by
  have hlt := encodeSextets_lt64 bs h
  unfold decodeB64 encodeB64
  rw [stripNewlines_of_sextets _ hlt, sextetsOfChars_map _ hlt]
  exact decodeSextets_encodeSextets bs h

theorem charOfSextet_ne_dollar : ∀ n, n < 64 → charOfSextet n ≠ '$' := by decide

theorem encodeB64_no_dollar (bs : List Nat) (h : ∀ b ∈ bs, b < 256) :
    '$' ∉ encodeB64 bs := by
  intro hc
  rcases List.mem_map.mp hc with ⟨x, hx, he⟩
  exact charOfSextet_ne_dollar x (encodeSextets_lt64 bs h x hx) he

theorem sextetOfChar_lt (c : Char) (v : Nat) (h : sextetOfChar c = some v) : v < 64 := by
  simp only [sextetOfChar] at h
  split at h
  · injection h with h; omega
  · split at h
    · injection h with h; omega
    · split at h
      · injection h with h; omega
      · split at h
        · injection h with h; omega
        · split at h
          · injection h with h; omega
          · cases h

theorem sextetsOfChars_lt (cs : List Char) (sx : List Nat)
    (h : sextetsOfChars cs = some sx) : ∀ v ∈ sx, v < 64 := by
  induction cs generalizing sx with
  | nil =>
    rw [sextetsOfChars] at h
    injection h with h
    subst h
    intro v hv
    cases hv
  | cons c rest ih =>
    rw [sextetsOfChars] at h
    rcases hc : sextetOfChar c with _ | v0 <;> rw [hc] at h
    · cases h
    · rcases hr : sextetsOfChars rest with _ | vs <;> rw [hr] at h
      · cases h
      · injection h with h
        subst h
        intro v hv
        rcases List.mem_cons.mp hv with rfl | hmem
        · exact sextetOfChar_lt c v hc
        · exact ih vs hr v hmem

theorem decodeSextets_bytes (sx : List Nat) (bs : List Nat)
    (hlt : ∀ v ∈ sx, v < 64) (h : decodeSextets sx = some bs) : ∀ b ∈ bs, b < 256 := by
  induction sx using decodeSextets.induct generalizing bs with
  | case1 s0 s1 s2 s3 rest ih =>
    have h0 := hlt s0 (by simp)
    have h1 := hlt s1 (by simp)
    have h2 := hlt s2 (by simp)
    have h3 := hlt s3 (by simp)
    have hrest : ∀ v ∈ rest, v < 64 := fun v hv => hlt v (by simp [hv])
    rw [decodeSextets] at h
    rcases ht : decodeSextets rest with _ | tail <;> rw [ht] at h
    · cases h
    · rw [Option.map_some'] at h
      injection h with h
      subst h
      intro b hb
      simp only [List.mem_cons] at hb
      rcases hb with rfl | rfl | rfl | hmem
      · omega
      · omega
      · omega
      · exact ih tail hrest ht b hmem
  | case2 s0 s1 s2 hz =>
    have h0 := hlt s0 (by simp)
    have h1 := hlt s1 (by simp)
    have h2 := hlt s2 (by simp)
    rw [decodeSextets, if_pos hz] at h
    injection h with h
    subst h
    intro b hb
    simp only [List.mem_cons, List.not_mem_nil, or_false] at hb
    rcases hb with rfl | rfl <;> omega
  | case3 s0 s1 s2 hz =>
    rw [decodeSextets, if_neg hz] at h
    cases h
  | case4 s0 s1 hz =>
    have h0 := hlt s0 (by simp)
    have h1 := hlt s1 (by simp)
    rw [decodeSextets, if_pos hz] at h
    injection h with h
    subst h
    intro b hb
    simp only [List.mem_cons, List.not_mem_nil, or_false] at hb
    rcases hb with rfl
    omega
  | case5 s0 s1 hz =>
    rw [decodeSextets, if_neg hz] at h
    cases h
  | case6 s0 => rw [decodeSextets] at h; cases h
  | case7 =>
    rw [decodeSextets] at h
    injection h with h
    subst h
    intro b hb
    cases hb

theorem decodeB64_bytes (s : List Char) (bs : List Nat) (h : decodeB64 s = some bs) :
    ∀ b ∈ bs, b < 256 := by
  unfold decodeB64 at h
  rcases hx : sextetsOfChars (stripNewlines s) with _ | sx <;> rw [hx] at h
  · cases h
  · exact decodeSextets_bytes sx bs (sextetsOfChars_lt _ sx hx) h

/-! ## Splitting on the delimiter (`strings.Split(hash, "$")`) -/

/-- Split a string at every occurrence of the delimiter character `$`
(`strings.Split` with separator `"$"`); the result is always non-empty and
contains one more segment than there are delimiters. -/
def splitOnDollar : List Char → List (List Char)
  | [] => [[]]
  | c :: rest =>
    if c = '$' then [] :: splitOnDollar rest
    else
      let tail := splitOnDollar rest
      (c :: tail.headD []) :: tail.tail

theorem splitOnDollar_ne_nil (l : List Char) : splitOnDollar l ≠ [] := by
  cases l with
  | nil => simp [splitOnDollar]
  | cons c rest =>
    rw [splitOnDollar]
    split <;> simp

theorem splitOnDollar_no_dollar (l : List Char) (h : '$' ∉ l) : splitOnDollar l = [l] := by
  induction l with
  | nil => rfl
  | cons c rest ih =>
    have hc : c ≠ '$' := fun he => h (he ▸ List.mem_cons_self c rest)
    have hrest : '$' ∉ rest := fun hm => h (List.mem_cons_of_mem c hm)
    rw [splitOnDollar, if_neg hc, ih hrest]
    rfl

theorem splitOnDollar_append (l r : List Char) (h : '$' ∉ l) :
    splitOnDollar (l ++ '$' :: r) = l :: splitOnDollar r := by
  induction l with
  | nil =>
    rw [List.nil_append, splitOnDollar, if_pos rfl]
  | cons c rest ih =>
    have hc : c ≠ '$' := fun he => h (he ▸ List.mem_cons_self c rest)
    have hrest : '$' ∉ rest := fun hm => h (List.mem_cons_of_mem c hm)
    rw [List.cons_append, splitOnDollar, if_neg hc, ih hrest]
    rfl

/-! ## Constant-time comparison (`crypto/subtle`) -/

/-- Fixed-time equality of two bytes (`subtle.ConstantTimeByteEq`): computed
as `uint32(x^y) - 1` shifted right 31 bits, so it is 1 exactly when the
bytes are equal, without a branch. -/
def constantTimeByteEq (x y : Nat) : Nat :=
  ((x ^^^ y) % 4294967296 + 4294967295) % 4294967296 / 2147483648

/-- Fixed-time, non-short-circuiting byte-slice comparison
(`subtle.ConstantTimeCompare`): 0 when the lengths differ, otherwise the
XOR of every byte pair is OR-accumulated into one sentinel which is compared
to zero at the end. -/
def constantTimeCompare (x y : List Nat) : Nat :=
  if x.length ≠ y.length then 0
  else constantTimeByteEq ((x.zip y).foldl (fun v p => v ||| (p.1 ^^^ p.2)) 0) 0

theorem constantTimeByteEq_zero (v : Nat) (h : v < 2147483648) :
    constantTimeByteEq v 0 = if v = 0 then 1 else 0 := by
  unfold constantTimeByteEq
  rw [Nat.xor_zero]
  split <;> omega

theorem or_eq_zero_iff (a b : Nat) : a ||| b = 0 ↔ a = 0 ∧ b = 0 := by
  constructor
  · intro h
    constructor
    · by_contra ha
      obtain ⟨i, hi⟩ := Nat.ne_zero_implies_bit_true ha
      have hor : (a ||| b).testBit i = true := by rw [Nat.testBit_or, hi, Bool.true_or]
      rw [h, Nat.zero_testBit] at hor
      cases hor
    · by_contra hb
      obtain ⟨i, hi⟩ := Nat.ne_zero_implies_bit_true hb
      have hor : (a ||| b).testBit i = true := by rw [Nat.testBit_or, hi, Bool.or_true]
      rw [h, Nat.zero_testBit] at hor
      cases hor
  · rintro ⟨rfl, rfl⟩; rfl

theorem foldl_or_xor_eq_zero (l : List (Nat × Nat)) (a : Nat) :
    l.foldl (fun v p => v ||| (p.1 ^^^ p.2)) a = 0 ↔ a = 0 ∧ ∀ p ∈ l, p.1 = p.2 := by
  induction l generalizing a with
  | nil => simp
  | cons q l ih =>
    rw [List.foldl_cons, ih]
    rw [or_eq_zero_iff, Nat.xor_eq_zero]
    constructor
    · rintro ⟨⟨ha, hq⟩, hall⟩
      exact ⟨ha, fun p hp => by
        rcases List.mem_cons.mp hp with rfl | hm
        · exact hq
        · exact hall p hm⟩
    · rintro ⟨ha, hall⟩
      exact ⟨⟨ha, hall q (List.mem_cons_self q l)⟩,
        fun p hp => hall p (List.mem_cons_of_mem q hp)⟩

theorem foldl_or_xor_lt (l : List (Nat × Nat)) (a : Nat) (ha : a < 256)
    (h : ∀ p ∈ l, p.1 < 256 ∧ p.2 < 256) :
    l.foldl (fun v p => v ||| (p.1 ^^^ p.2)) a < 256 := by
  induction l generalizing a with
  | nil => simpa
  | cons q l ih =>
    rw [List.foldl_cons]
    have hq := h q (List.mem_cons_self q l)
    have hx : q.1 ^^^ q.2 < 256 := Nat.xor_lt_two_pow (n := 8) hq.1 hq.2
    exact ih (a ||| (q.1 ^^^ q.2)) (Nat.or_lt_two_pow (n := 8) ha hx)
      (fun p hp => h p (List.mem_cons_of_mem q hp))

theorem zip_self_fst_eq_snd (x : List Nat) : ∀ p ∈ x.zip x, p.1 = p.2 := by
  induction x with
  | nil => intro p hp; cases hp
  | cons b x ih =>
    intro p hp
    rw [List.zip_cons_cons] at hp
    rcases List.mem_cons.mp hp with rfl | hm
    · rfl
    · exact ih p hm

theorem constantTimeCompare_eq_one_iff (x y : List Nat)
    (hx : ∀ b ∈ x, b < 256) (hy : ∀ b ∈ y, b < 256) :
    constantTimeCompare x y = 1 ↔ x = y := by
  unfold constantTimeCompare
  by_cases hlen : x.length = y.length
  · rw [if_neg (by omega)]
    have hmem : ∀ p ∈ x.zip y, p.1 < 256 ∧ p.2 < 256 := by
      intro p hp
      exact ⟨hx p.1 (List.of_mem_zip hp).1, hy p.2 (List.of_mem_zip hp).2⟩
    have hlt : (x.zip y).foldl (fun v p => v ||| (p.1 ^^^ p.2)) 0 < 256 :=
      foldl_or_xor_lt _ 0 (by omega) hmem
    rw [constantTimeByteEq_zero _ (by omega)]
    constructor
    · intro h1
      have hz : (x.zip y).foldl (fun v p => v ||| (p.1 ^^^ p.2)) 0 = 0 := by
        by_contra hnz
        rw [if_neg hnz] at h1
        cases h1
      obtain ⟨_, hall⟩ := (foldl_or_xor_eq_zero _ 0).mp hz
      exact List.ext_get hlen (fun i hi hj => by
        have := hall ((x.get ⟨i, hi⟩), (y.get ⟨i, hj⟩))
          (by
            rw [List.mem_iff_get]
            refine ⟨⟨i, by rw [List.length_zip]; omega⟩, ?_⟩
            simp [List.getElem_zip])
        simpa using this)
    · rintro rfl
      rw [if_pos ((foldl_or_xor_eq_zero _ 0).mpr ⟨rfl, zip_self_fst_eq_snd x⟩)]
  · rw [if_pos (by omega)]
    constructor
    · intro h; cases h
    · rintro rfl; exact absurd rfl hlen

/-! ## Numeric scanning (`fmt.Sscanf` with formats `v=%d` and `m=%d,t=%d,p=%d`) -/

/-- A base-10 integer scan for a signed 64-bit operand (`%d` into an `int`):
an optional sign followed by a maximal digit run, range-checked by
`strconv.ParseInt`; the unconsumed rest of the input is ignored by
`Sscanf`. -/
def scanIntFrom (s : List Char) : Option Int :=
  match s with
  | [] => none
  | c :: rest =>
    if c.toNat = 45 then
      (scanUintFrom rest (2 ^ 63 + 1)).map (fun p => -(p.1 : Int))
    else if c.toNat = 43 then
      (scanUintFrom rest (2 ^ 63)).map (fun p => (p.1 : Int))
    else (scanUintFrom (c :: rest) (2 ^ 63)).map (fun p => (p.1 : Int))

/-- Scan of the version segment against the format `v=%d`
(`fmt.Sscanf(parts[versionIdx], versionTemplate, &version)`): the literal
prefix `v=` followed by a signed base-10 integer. -/
def scanVersion (s : List Char) : Option Int :=
  match s with
  | c1 :: c2 :: rest => if c1 = 'v' ∧ c2 = '=' then scanIntFrom rest else none
  | _ => none

/-- Scan of the parameter segment against the format `m=%d,t=%d,p=%d`
(`fmt.Sscanf(parts[paramsIdx], paramsTemplate, &memoryCost, &timeCost,
&parallelismCost)`): literals interleaved with unsigned scans into
`uint32`, `uint32` and `uint8` operands, returned in the textual order
(memoryCost, timeCost, parallelismCost). -/
def scanParams (s : List Char) : Option (Nat × Nat × Nat) :=
  match s with
  | c1 :: c2 :: rest =>
    if c1 = 'm' ∧ c2 = '=' then
      match scanUintFrom rest (2 ^ 32) with
      | none => none
      | some (m, r1) =>
        match r1 with
        | d1 :: d2 :: d3 :: r2 =>
          if d1 = ',' ∧ d2 = 't' ∧ d3 = '=' then
            match scanUintFrom r2 (2 ^ 32) with
            | none => none
            | some (t, r3) =>
              match r3 with
              | e1 :: e2 :: e3 :: r4 =>
                if e1 = ',' ∧ e2 = 'p' ∧ e3 = '=' then
                  match scanUintFrom r4 (2 ^ 8) with
                  | none => none
                  | some (p, _) => some (m, t, p)
                else none
              | _ => none
          else none
        | _ => none
    else none
  | _ => none

/-- The version segment formatted by `Generate` (`v=%d` of `fmt.Sprintf`). -/
def versionSegment (v : Nat) : List Char := 'v' :: '=' :: natToChars v

/-- The parameter segment formatted by `Generate` (`m=%d,t=%d,p=%d` of
`fmt.Sprintf`, applied to memoryCost, timeCost, parallelismCost in that
order). -/
def paramsSegment (m t p : Nat) : List Char :=
  'm' :: '=' :: (natToChars m ++ ',' :: 't' :: '=' :: (natToChars t ++ ',' :: 'p' :: '=' :: natToChars p))

theorem natToChars_head_digit (n : Nat) :
    ∃ d ds, natToChars n = d :: ds ∧ isDigit d = true := by
  rcases hn : natToChars n with _ | ⟨d, ds⟩
  · exact absurd hn (natToChars_ne_nil n)
  · exact ⟨d, ds, rfl, natToChars_all_digits n d (hn ▸ List.mem_cons_self d ds)⟩

theorem scanIntFrom_natToChars (n : Nat) (hb : n < 2 ^ 63) :
    scanIntFrom (natToChars n) = some (n : Int) := by
  obtain ⟨d, ds, hn, hd⟩ := natToChars_head_digit n
  rw [hn, scanIntFrom]
  unfold isDigit at hd
  simp only [Bool.and_eq_true, decide_eq_true_eq] at hd
  rw [if_neg (by omega), if_neg (by omega), ← hn]
  have := scanUintFrom_natToChars n [] (2 ^ 63) trivial hb
  rw [List.append_nil] at this
  rw [this, Option.map_some']

theorem scanVersion_versionSegment (v : Nat) (hb : v < 2 ^ 63) :
    scanVersion (versionSegment v) = some (v : Int) := by
  rw [versionSegment, scanVersion, if_pos ⟨rfl, rfl⟩]
  exact scanIntFrom_natToChars v hb

theorem scanParams_paramsSegment (m t p : Nat)
    (hm : m < 2 ^ 32) (ht : t < 2 ^ 32) (hp : p < 2 ^ 8) :
    scanParams (paramsSegment m t p) = some (m, t, p) := by
  rw [paramsSegment, scanParams, if_pos ⟨rfl, rfl⟩]
  rw [scanUintFrom_natToChars m _ _ (by simp [headNotSat, isDigit]) hm]
  dsimp only
  rw [if_pos ⟨rfl, rfl, rfl⟩]
  rw [scanUintFrom_natToChars t _ _ (by simp [headNotSat, isDigit]) ht]
  dsimp only
  rw [if_pos ⟨rfl, rfl, rfl⟩]
  have hlast := scanUintFrom_natToChars p [] (2 ^ 8) trivial hp
  rw [List.append_nil] at hlast
  rw [hlast]

/-! ## The package's data model (argon2id.go) -/

/-- The configuration held by an `Argon2Id` value: five cost/size parameters.
The Go fields are `uint32` (`parallelismCost` is `uint8`); they are modelled
as `Nat`, with the machine ranges (`< 2^32`, `< 2^8`) stated as hypotheses
where they matter. -/
structure Argon2Id where
  timeCost : Nat
  memoryCost : Nat
  parallelismCost : Nat
  saltLength : Nat
  keyLength : Nat
deriving DecidableEq

/-- Default time cost (`defaultTimeCost uint32 = 2`). -/
def defaultTimeCost : Nat := 2

/-- Default memory cost (`defaultMemoryCost uint32 = 65536`). -/
def defaultMemoryCost : Nat := 65536

/-- Default salt length in bytes (`defaultSaltLength uint32 = 16`). -/
def defaultSaltLength : Nat := 16

/-- Default key length in bytes (`defaultKeyLength uint32 = 32`). -/
def defaultKeyLength : Nat := 32

/-- The five exported option constructors of the package.  Each Go option is
a closure setting exactly one field; they are embedded as the inductive of
the five constructors together with `applyOption`. -/
inductive Argon2IdOption where
  | withTimeCost (n : Nat)
  | withMemoryCost (n : Nat)
  | withParallelismCost (n : Nat)
  | withSaltLength (n : Nat)
  | withKeyLength (n : Nat)
deriving DecidableEq

/-- Application of one option closure to the configuration under
construction (`option(a)` in `New`); each option writes its one field and
performs no validation. -/
def applyOption (a : Argon2Id) : Argon2IdOption → Argon2Id
  | .withTimeCost n => { a with timeCost := n }
  | .withMemoryCost n => { a with memoryCost := n }
  | .withParallelismCost n => { a with parallelismCost := n }
  | .withSaltLength n => { a with saltLength := n }
  | .withKeyLength n => { a with keyLength := n }

/-- Constructor `New(options ...Argon2IdOption)`: start from the defaults
(`defaultParallelismCost` is set to `runtime.NumCPU()` by the package's
`init`, modelled by the explicit `numCPU` argument) and apply the options in
the order given. -/
def New (numCPU : Nat) (options : List Argon2IdOption) : Argon2Id :=
  options.foldl applyOption
    { timeCost := defaultTimeCost
      memoryCost := defaultMemoryCost
      parallelismCost := numCPU
      saltLength := defaultSaltLength
      keyLength := defaultKeyLength }

/-- Signature of the external KDF collaborator (`argon2.IDKey`):
password, salt, timeCost, memoryCost, parallelismCost, outputLength. -/
abbrev KDF := List Nat → List Nat → Nat → Nat → Nat → Nat → List Nat

/-- A KDF respects the output-length half of the spec's KDF contract:
the derived key has exactly the requested length. -/
def KDFLengthContract (kdf : KDF) : Prop :=
  ∀ password salt t m p len, (kdf password salt t m p len).length = len

/-- A KDF respects the byte-valued half of the spec's KDF contract:
the derived key is a sequence of bytes. -/
def KDFByteContract (kdf : KDF) : Prop :=
  ∀ password salt t m p len, ∀ b ∈ kdf password salt t m p len, b < 256

/-- Modelled from the spec: a concrete stand-in for the external
`argon2.IDKey` collaborator (spec section 6: deterministic, returns a key of
exactly the requested output length, made of bytes).  Used only to witness
that the KDF contract hypotheses of the theorems are satisfiable. -/
def kdfModel : KDF := fun password salt t m p len =>
  (List.range len).map (fun i =>
    (password.foldl (fun acc b => acc * 257 + b + 1) 0 +
      31 * salt.foldl (fun acc b => acc * 257 + b + 1) 0 +
      101 * t + 103 * m + 107 * p + i) % 256)

theorem kdfModel_length : KDFLengthContract kdfModel := by
  intro password salt t m p len
  simp [kdfModel]

theorem kdfModel_bytes : KDFByteContract kdfModel := by
  intro password salt t m p len b hb
  simp only [kdfModel, List.mem_map] at hb
  obtain ⟨i, _, rfl⟩ := hb
  omega

/-- The algorithm tag (`algorithm = "argon2id"`), as the second segment of
the canonical string. -/
def algorithm : List Char := "argon2id".data

/-- The KDF's version constant (`argon2.Version = 19`), formatted into every
generated string. -/
def argon2Version : Nat := 19

/-- The constant an equal comparison yields (`matching = 1`). -/
def matching : Nat := 1

/-- The distinguishable error outcomes of `Compare`.  The Go code wraps
sentinel errors with `fmt.Errorf`; `errors.Is` distinguishes exactly these
cases (the first two both unwrap to `ErrMalformedHash`). -/
inductive CompareError where
  | malformedParts
  | malformedAlgorithm
  | scanVersionError
  | scanParamsError
  | decodeSaltError
  | decodeKeyError
  | passwordsDoNotMatch
deriving DecidableEq

/-- Whether `errors.Is(err, ErrMalformedHash)` holds for the outcome. -/
def CompareError.isMalformedHash : CompareError → Bool
  | .malformedParts => true
  | .malformedAlgorithm => true
  | _ => false

/-- Whether `errors.Is(err, ErrPasswordsDoNotMatch)` holds for the outcome. -/
def CompareError.isPasswordMismatch : CompareError → Bool
  | .passwordsDoNotMatch => true
  | _ => false

/-- The final step of `Compare` (lines 138-144): derive the candidate key
with the parsed parameters and the decoded stored key's length, and compare
with `subtle.ConstantTimeCompare`. -/
def compareFinal (kdf : KDF) (password : List Nat) (timeCost memoryCost parallelismCost : Nat)
    (salt key : List Nat) : Option CompareError :=
  let comparisonKey := kdf password salt timeCost memoryCost parallelismCost key.length
  if constantTimeCompare key comparisonKey = matching then none
  else some .passwordsDoNotMatch

/-- Decoding of the key segment (lines 133-136), then the final step. -/
def compareKeyStep (kdf : KDF) (password : List Nat) (timeCost memoryCost parallelismCost : Nat)
    (salt : List Nat) (p5 : List Char) : Option CompareError :=
  match decodeB64 p5 with
  | none => some .decodeKeyError
  | some key => compareFinal kdf password timeCost memoryCost parallelismCost salt key

/-- Decoding of the salt segment (lines 128-131), then the rest. -/
def compareSaltStep (kdf : KDF) (password : List Nat) (timeCost memoryCost parallelismCost : Nat)
    (p4 p5 : List Char) : Option CompareError :=
  match decodeB64 p4 with
  | none => some .decodeSaltError
  | some salt => compareKeyStep kdf password timeCost memoryCost parallelismCost salt p5

/-- Scanning of the parameter segment (lines 122-126), then the rest. -/
def compareParamsStep (kdf : KDF) (password : List Nat) (p3 p4 p5 : List Char) :
    Option CompareError :=
  match scanParams p3 with
  | none => some .scanParamsError
  | some (memoryCost, timeCost, parallelismCost) =>
    compareSaltStep kdf password timeCost memoryCost parallelismCost p4 p5

/-- Scanning of the version segment (lines 117-120), then the rest; the
scanned value is bound to `version` and never used again. -/
def compareVersionStep (kdf : KDF) (password : List Nat) (p2 p3 p4 p5 : List Char) :
    Option CompareError :=
  match scanVersion p2 with
  | none => some .scanVersionError
  | some _version => compareParamsStep kdf password p3 p4 p5

/-- The algorithm-tag check (lines 113-115), then the rest. -/
def compareParts (kdf : KDF) (password : List Nat) (p1 p2 p3 p4 p5 : List Char) :
    Option CompareError :=
  if p1 ≠ algorithm then some .malformedAlgorithm
  else compareVersionStep kdf password p2 p3 p4 p5

/-- Method `Compare(password, hash)` (lines 107-145): split on `$`, require
exactly six segments, then run the segment checks in source order.  The
receiver `a` is embedded because the Go method has it; its fields are never
read during verification. -/
def Compare (kdf : KDF) (a : Argon2Id) (password : List Nat) (hash : List Char) :
    Option CompareError :=
  match splitOnDollar hash with
  | [_p0, p1, p2, p3, p4, p5] => compareParts kdf password p1 p2 p3 p4 p5
  | _ => some .malformedParts

/-- The canonical string of `fmt.Sprintf(template, argon2.Version,
a.memoryCost, a.timeCost, a.parallelismCost, b64Salt, b64Key)` with template
`$argon2id$v=%d$m=%d,t=%d,p=%d$%s$%s`. -/
def formatHash (version m t p : Nat) (b64Salt b64Key : List Char) : List Char :=
  '$' :: (algorithm ++ '$' :: (versionSegment version ++ '$' :: (paramsSegment m t p ++ '$' :: (b64Salt ++ '$' :: b64Key))))

/-- The string `Generate` produces from a given salt: derive the key from
the receiver's parameters (line 98), base64-encode salt and key (lines
100-101), and format the canonical string (line 103). -/
def generateHash (kdf : KDF) (a : Argon2Id) (password salt : List Nat) : List Char :=
  let key := kdf password salt a.timeCost a.memoryCost a.parallelismCost a.keyLength
  formatHash argon2Version a.memoryCost a.timeCost a.parallelismCost
    (encodeB64 salt) (encodeB64 key)

/-- Method `Generate(password)` (lines 88-104).  The random source is
external: the salt it produced is an explicit argument, and the code's check
that exactly `a.saltLength` bytes were read (lines 94-96, `ErrBytesNotRead`
otherwise) is the guard. -/
def Generate (kdf : KDF) (a : Argon2Id) (password salt : List Nat) : Option (List Char) :=
  if salt.length ≠ a.saltLength then none
  else some (generateHash kdf a password salt)

/-! ## Structural lemmas about `Compare` and the canonical string -/

theorem isDigit_ne_dollar (c : Char) (h : isDigit c = true) : c ≠ '$' := by
  intro he
  subst he
  exact absurd h (by decide)

theorem no_dollar_algorithm : '$' ∉ algorithm := by decide

theorem no_dollar_versionSegment (v : Nat) : '$' ∉ versionSegment v := by
  intro h
  rw [versionSegment] at h
  rcases List.mem_cons.mp h with he | h
  · cases he
  rcases List.mem_cons.mp h with he | h
  · cases he
  exact isDigit_ne_dollar '$' (natToChars_all_digits v '$' h) rfl

theorem no_dollar_paramsSegment (m t p : Nat) : '$' ∉ paramsSegment m t p := by
  intro h
  rw [paramsSegment] at h
  rcases List.mem_cons.mp h with he | h
  · cases he
  rcases List.mem_cons.mp h with he | h
  · cases he
  rcases List.mem_append.mp h with h | h
  · exact isDigit_ne_dollar '$' (natToChars_all_digits m '$' h) rfl
  rcases List.mem_cons.mp h with he | h
  · cases he
  rcases List.mem_cons.mp h with he | h
  · cases he
  rcases List.mem_cons.mp h with he | h
  · cases he
  rcases List.mem_append.mp h with h | h
  · exact isDigit_ne_dollar '$' (natToChars_all_digits t '$' h) rfl
  rcases List.mem_cons.mp h with he | h
  · cases he
  rcases List.mem_cons.mp h with he | h
  · cases he
  rcases List.mem_cons.mp h with he | h
  · cases he
  exact isDigit_ne_dollar '$' (natToChars_all_digits p '$' h) rfl

theorem splitOnDollar_formatHash (v m t p : Nat) (s k : List Char)
    (hs : '$' ∉ s) (hk : '$' ∉ k) :
    splitOnDollar (formatHash v m t p s k) =
      [[], algorithm, versionSegment v, paramsSegment m t p, s, k] := by
  rw [formatHash, splitOnDollar, if_pos rfl]
  rw [splitOnDollar_append _ _ no_dollar_algorithm]
  rw [splitOnDollar_append _ _ (no_dollar_versionSegment v)]
  rw [splitOnDollar_append _ _ (no_dollar_paramsSegment m t p)]
  rw [splitOnDollar_append _ _ hs]
  rw [splitOnDollar_no_dollar _ hk]

theorem Compare_of_split (kdf : KDF) (a : Argon2Id) (password : List Nat) (hash : List Char)
    (p0 p1 p2 p3 p4 p5 : List Char) (h : splitOnDollar hash = [p0, p1, p2, p3, p4, p5]) :
    Compare kdf a password hash = compareParts kdf password p1 p2 p3 p4 p5 := by
  rw [Compare, h]

theorem Compare_of_split_ne_six (kdf : KDF) (a : Argon2Id) (password : List Nat)
    (hash : List Char) (h : (splitOnDollar hash).length ≠ 6) :
    Compare kdf a password hash = some CompareError.malformedParts := by
  rw [Compare]
  rcases hs : splitOnDollar hash with _ | ⟨q0, _ | ⟨q1, _ | ⟨q2, _ | ⟨q3, _ | ⟨q4, _ | ⟨q5, _ | ⟨q6, rest⟩⟩⟩⟩⟩⟩⟩ <;>
    first
      | rfl
      | (exact absurd (by rw [hs]; rfl) h)

theorem compareParts_algorithm_ok (kdf : KDF) (password : List Nat)
    (p2 p3 p4 p5 : List Char) :
    compareParts kdf password algorithm p2 p3 p4 p5 =
      compareVersionStep kdf password p2 p3 p4 p5 := by
  rw [compareParts, if_neg (by simp)]

theorem compareVersionStep_some (kdf : KDF) (password : List Nat)
    (p2 p3 p4 p5 : List Char) (v : Int) (h : scanVersion p2 = some v) :
    compareVersionStep kdf password p2 p3 p4 p5 = compareParamsStep kdf password p3 p4 p5 := by
  rw [compareVersionStep, h]

theorem compareParamsStep_some (kdf : KDF) (password : List Nat)
    (p3 p4 p5 : List Char) (m t p : Nat) (h : scanParams p3 = some (m, t, p)) :
    compareParamsStep kdf password p3 p4 p5 = compareSaltStep kdf password t m p p4 p5 := by
  rw [compareParamsStep, h]

theorem compareSaltStep_some (kdf : KDF) (password : List Nat) (t m p : Nat)
    (p4 p5 : List Char) (salt : List Nat) (h : decodeB64 p4 = some salt) :
    compareSaltStep kdf password t m p p4 p5 = compareKeyStep kdf password t m p salt p5 := by
  rw [compareSaltStep, h]

theorem compareKeyStep_some (kdf : KDF) (password : List Nat) (t m p : Nat)
    (salt : List Nat) (p5 : List Char) (key : List Nat) (h : decodeB64 p5 = some key) :
    compareKeyStep kdf password t m p salt p5 = compareFinal kdf password t m p salt key := by
  rw [compareKeyStep, h]

/-- Evaluation of `Compare` on a hash whose six segments parse: the result is
the constant-time comparison of the stored key against the key recomputed
with the parsed parameters and the stored key's length. -/
theorem Compare_parsed (kdf : KDF) (a : Argon2Id) (password : List Nat) (hash : List Char)
    (p0 p2 p3 p4 p5 : List Char) (v : Int) (m t p : Nat) (salt key : List Nat)
    (hsplit : splitOnDollar hash = [p0, algorithm, p2, p3, p4, p5])
    (hver : scanVersion p2 = some v)
    (hparams : scanParams p3 = some (m, t, p))
    (hsalt : decodeB64 p4 = some salt)
    (hkey : decodeB64 p5 = some key) :
    Compare kdf a password hash =
      if constantTimeCompare key (kdf password salt t m p key.length) = matching then none
      else some CompareError.passwordsDoNotMatch := by
  rw [Compare_of_split kdf a password hash p0 algorithm p2 p3 p4 p5 hsplit,
    compareParts_algorithm_ok, compareVersionStep_some kdf password p2 p3 p4 p5 v hver,
    compareParamsStep_some kdf password p3 p4 p5 m t p hparams,
    compareSaltStep_some kdf password t m p p4 p5 salt hsalt,
    compareKeyStep_some kdf password t m p salt p5 key hkey, compareFinal]

/-- Evaluation of `Compare` on the exact string `Generate` built: every
parse step recovers the generating configuration's parameters and bytes. -/
theorem Compare_generateHash (kdf : KDF) (aGen aVer : Argon2Id) (password salt : List Nat)
    (hkdfLen : KDFLengthContract kdf) (hkdfBytes : KDFByteContract kdf)
    (hsaltBytes : ∀ b ∈ salt, b < 256)
    (hm : aGen.memoryCost < 2 ^ 32) (ht : aGen.timeCost < 2 ^ 32)
    (hp : aGen.parallelismCost < 2 ^ 8) :
    Compare kdf aVer password (generateHash kdf aGen password salt) = none := by
  have hkeyBytes := hkdfBytes password salt aGen.timeCost aGen.memoryCost
    aGen.parallelismCost aGen.keyLength
  have hsplit := splitOnDollar_formatHash argon2Version aGen.memoryCost aGen.timeCost
    aGen.parallelismCost (encodeB64 salt)
    (encodeB64 (kdf password salt aGen.timeCost aGen.memoryCost aGen.parallelismCost aGen.keyLength))
    (encodeB64_no_dollar salt hsaltBytes) (encodeB64_no_dollar _ hkeyBytes)
  rw [generateHash]
  rw [Compare_parsed kdf aVer password _ _ _ _ _ _ (argon2Version : Int)
    aGen.memoryCost aGen.timeCost aGen.parallelismCost salt _
    hsplit
    (scanVersion_versionSegment argon2Version (by decide))
    (scanParams_paramsSegment _ _ _ hm ht hp)
    (decodeB64_encodeB64 salt hsaltBytes)
    (decodeB64_encodeB64 _ hkeyBytes)]
  rw [hkdfLen password salt aGen.timeCost aGen.memoryCost aGen.parallelismCost aGen.keyLength]
  rw [if_pos]
  rw [matching, constantTimeCompare_eq_one_iff _ _ hkeyBytes hkeyBytes]

/-! ## The claims -/

/-- C1: for every configuration and every password, verifying the password
against the string `Generate` produced for it succeeds — `Compare` returns
nil — and this holds for any receiver configuration used at verification
time.  The external KDF is assumed to satisfy the spec's contract (output of
the requested length, made of bytes); the salt is the `saltLength`-byte
output of the random source; the Go `uint32`/`uint8` field ranges of the
generating configuration are explicit hypotheses. -/
theorem C1_roundTrip (kdf : KDF) (hkdfLen : KDFLengthContract kdf)
    (hkdfBytes : KDFByteContract kdf) (aGen aVer : Argon2Id) (password salt : List Nat)
    (hsaltLen : salt.length = aGen.saltLength) (hsaltBytes : ∀ b ∈ salt, b < 256)
    (hm : aGen.memoryCost < 2 ^ 32) (ht : aGen.timeCost < 2 ^ 32)
    (hp : aGen.parallelismCost < 2 ^ 8) :
    Generate kdf aGen password salt = some (generateHash kdf aGen password salt) ∧
    Compare kdf aVer password (generateHash kdf aGen password salt) = none := by
  constructor
  · rw [Generate, if_neg (by omega)]
  · exact Compare_generateHash kdf aGen aVer password salt hkdfLen hkdfBytes
      hsaltBytes hm ht hp

/-- C2: a successful `Generate` output is exactly the canonical string: six
`$`-separated segments with an empty leading segment, the algorithm tag,
`v=` with the KDF's version constant, `m=`,`t=`,`p=` with the
configuration's values in that order, then the unpadded standard base64 of
the salt and of the derived key; the salt segment decodes back to the
`saltLength` salt bytes and the key segment decodes back to the `keyLength`
derived-key bytes. -/
theorem C2_canonicalFormat (kdf : KDF) (hkdfLen : KDFLengthContract kdf)
    (hkdfBytes : KDFByteContract kdf) (a : Argon2Id) (password salt : List Nat)
    (hsaltLen : salt.length = a.saltLength) (hsaltBytes : ∀ b ∈ salt, b < 256)
    (hm : a.memoryCost < 2 ^ 32) (ht : a.timeCost < 2 ^ 32)
    (hp : a.parallelismCost < 2 ^ 8) :
    splitOnDollar (generateHash kdf a password salt) =
      [[], algorithm, versionSegment argon2Version,
        paramsSegment a.memoryCost a.timeCost a.parallelismCost, encodeB64 salt,
        encodeB64 (kdf password salt a.timeCost a.memoryCost a.parallelismCost a.keyLength)] ∧
    scanVersion (versionSegment argon2Version) = some (argon2Version : Int) ∧
    scanParams (paramsSegment a.memoryCost a.timeCost a.parallelismCost) =
      some (a.memoryCost, a.timeCost, a.parallelismCost) ∧
    decodeB64 (encodeB64 salt) = some salt ∧
    salt.length = a.saltLength ∧
    decodeB64 (encodeB64 (kdf password salt a.timeCost a.memoryCost a.parallelismCost a.keyLength)) =
      some (kdf password salt a.timeCost a.memoryCost a.parallelismCost a.keyLength) ∧
    (kdf password salt a.timeCost a.memoryCost a.parallelismCost a.keyLength).length =
      a.keyLength := by
  have hkeyBytes := hkdfBytes password salt a.timeCost a.memoryCost a.parallelismCost a.keyLength
  refine ⟨?_, ?_, ?_, ?_, hsaltLen, ?_, ?_⟩
  · rw [generateHash]
    exact splitOnDollar_formatHash argon2Version a.memoryCost a.timeCost a.parallelismCost
      _ _ (encodeB64_no_dollar salt hsaltBytes) (encodeB64_no_dollar _ hkeyBytes)
  · exact scanVersion_versionSegment argon2Version (by decide)
  · exact scanParams_paramsSegment _ _ _ hm ht hp
  · exact decodeB64_encodeB64 salt hsaltBytes
  · exact decodeB64_encodeB64 _ hkeyBytes
  · exact hkdfLen password salt a.timeCost a.memoryCost a.parallelismCost a.keyLength

/-- C3: for distinct passwords P and Q, comparing Q against a hash generated
for P yields exactly the password-mismatch error (not success and not a
structural error), for any receiver configuration.  The KDF contract cannot
rule out collisions, so the idealization that the two derived keys differ
(which the spec's negative-case property presumes for distinct passwords) is
an explicit hypothesis. -/
theorem C3_wrongPassword (kdf : KDF) (hkdfLen : KDFLengthContract kdf)
    (hkdfBytes : KDFByteContract kdf) (aGen aVer : Argon2Id) (P Q salt : List Nat)
    (hsaltBytes : ∀ b ∈ salt, b < 256)
    (hm : aGen.memoryCost < 2 ^ 32) (ht : aGen.timeCost < 2 ^ 32)
    (hp : aGen.parallelismCost < 2 ^ 8) (hne : P ≠ Q)
    (hkeys : kdf P salt aGen.timeCost aGen.memoryCost aGen.parallelismCost aGen.keyLength ≠
      kdf Q salt aGen.timeCost aGen.memoryCost aGen.parallelismCost aGen.keyLength) :
    Compare kdf aVer Q (generateHash kdf aGen P salt) =
      some CompareError.passwordsDoNotMatch ∧
    CompareError.passwordsDoNotMatch.isPasswordMismatch = true ∧
    CompareError.passwordsDoNotMatch.isMalformedHash = false := by
  refine ⟨?_, rfl, rfl⟩
  have hkeyBytes := hkdfBytes P salt aGen.timeCost aGen.memoryCost
    aGen.parallelismCost aGen.keyLength
  have hcandBytes := hkdfBytes Q salt aGen.timeCost aGen.memoryCost
    aGen.parallelismCost aGen.keyLength
  have hsplit := splitOnDollar_formatHash argon2Version aGen.memoryCost aGen.timeCost
    aGen.parallelismCost (encodeB64 salt)
    (encodeB64 (kdf P salt aGen.timeCost aGen.memoryCost aGen.parallelismCost aGen.keyLength))
    (encodeB64_no_dollar salt hsaltBytes) (encodeB64_no_dollar _ hkeyBytes)
  rw [generateHash]
  rw [Compare_parsed kdf aVer Q _ _ _ _ _ _ (argon2Version : Int)
    aGen.memoryCost aGen.timeCost aGen.parallelismCost salt _
    hsplit
    (scanVersion_versionSegment argon2Version (by decide))
    (scanParams_paramsSegment _ _ _ hm ht hp)
    (decodeB64_encodeB64 salt hsaltBytes)
    (decodeB64_encodeB64 _ hkeyBytes)]
  rw [hkdfLen P salt aGen.timeCost aGen.memoryCost aGen.parallelismCost aGen.keyLength]
  rw [if_neg]
  rw [matching, constantTimeCompare_eq_one_iff _ _ hkeyBytes hcandBytes]
  exact hkeys

/-- C4: `Compare` rejects with the malformed-hash error every string that
does not split on `$` into exactly six segments, and every six-segment
string whose segment at index 1 differs from the tag `argon2id`; in both
cases the result is a constant — the KDF parameter and the password are
universally quantified and unused, so no KDF computation is attempted. -/
theorem C4_formatRejection (kdf : KDF) (a : Argon2Id) (password : List Nat)
    (hash : List Char) :
    ((splitOnDollar hash).length ≠ 6 →
      Compare kdf a password hash = some CompareError.malformedParts) ∧
    (∀ p0 p1 p2 p3 p4 p5, splitOnDollar hash = [p0, p1, p2, p3, p4, p5] →
      p1 ≠ algorithm → Compare kdf a password hash = some CompareError.malformedAlgorithm) ∧
    CompareError.malformedParts.isMalformedHash = true ∧
    CompareError.malformedAlgorithm.isMalformedHash = true := by
  refine ⟨fun h => Compare_of_split_ne_six kdf a password hash h, ?_, rfl, rfl⟩
  intro p0 p1 p2 p3 p4 p5 hsplit hne
  rw [Compare_of_split kdf a password hash p0 p1 p2 p3 p4 p5 hsplit, compareParts, if_pos hne]

/-- C5: on a hash whose six segments all parse, the output length `Compare`
passes to the KDF when recomputing the candidate key is the byte length of
the base64-decoded stored key segment — the receiver's `keyLength` field
appears nowhere — so the two operands of the final comparison have equal
length. -/
theorem C5_recomputeWithStoredKeyLength (kdf : KDF) (hkdfLen : KDFLengthContract kdf)
    (a : Argon2Id) (password : List Nat) (hash : List Char)
    (p0 p2 p3 p4 p5 : List Char) (v : Int) (m t p : Nat) (salt key : List Nat)
    (hsplit : splitOnDollar hash = [p0, algorithm, p2, p3, p4, p5])
    (hver : scanVersion p2 = some v)
    (hparams : scanParams p3 = some (m, t, p))
    (hsalt : decodeB64 p4 = some salt)
    (hkey : decodeB64 p5 = some key) :
    (kdf password salt t m p key.length).length = key.length ∧
    Compare kdf a password hash =
      if constantTimeCompare key (kdf password salt t m p key.length) = matching then none
      else some CompareError.passwordsDoNotMatch := by
  exact ⟨hkdfLen password salt t m p key.length,
    Compare_parsed kdf a password hash p0 p2 p3 p4 p5 v m t p salt key
      hsplit hver hparams hsalt hkey⟩

/-- C6: the result of `Compare` is independent of the receiver
configuration: any two configurations give the same outcome on every
password and every input string — verification reads only what is embedded
in the string.  In the embedding `Compare` never projects a field of its
receiver, so the two sides are definitionally equal. -/
theorem C6_receiverIndependent (kdf : KDF) (password : List Nat) (hash : List Char)
    (a1 a2 : Argon2Id) : Compare kdf a1 password hash = Compare kdf a2 password hash := rfl

/-- C7: `Compare` is a total function that always returns nil or one of the
defined error outcomes, for every password and every input string (the
external KDF being total per its contract); in particular the malformed
input `not-a-hash` yields the malformed-hash error.  No outcome is consumed
internally: the result is exactly the first failing step's error. -/
theorem C7_totalDefinedOutcomes (kdf : KDF) (a : Argon2Id) (password : List Nat)
    (hash : List Char) :
    (Compare kdf a password hash = none ∨
      ∃ e, Compare kdf a password hash = some e ∧
        e ∈ [CompareError.malformedParts, CompareError.malformedAlgorithm,
          CompareError.scanVersionError, CompareError.scanParamsError,
          CompareError.decodeSaltError, CompareError.decodeKeyError,
          CompareError.passwordsDoNotMatch]) ∧
    Compare kdf a password ("not-a-hash".data) = some CompareError.malformedParts ∧
    CompareError.malformedParts.isMalformedHash = true := by
  refine ⟨?_, ?_, rfl⟩
  · rcases h : Compare kdf a password hash with _ | e
    · exact Or.inl rfl
    · exact Or.inr ⟨e, rfl, by cases e <;> simp⟩
  · exact Compare_of_split_ne_six kdf a password _ (by decide)

/-- C8: the final comparison of the decoded stored key against the
recomputed candidate is `subtle.ConstantTimeCompare`, the fixed-time
non-short-circuiting primitive that OR-accumulates the XOR of every byte
pair: it yields 1 exactly when the byte slices are equal, and `Compare`
returns nil when they are equal and the password-mismatch error when they
are not. -/
theorem C8_constantTimeComparison (kdf : KDF) (hkdfBytes : KDFByteContract kdf)
    (a : Argon2Id) (password : List Nat) (hash : List Char)
    (p0 p2 p3 p4 p5 : List Char) (v : Int) (m t p : Nat) (salt key : List Nat)
    (hsplit : splitOnDollar hash = [p0, algorithm, p2, p3, p4, p5])
    (hver : scanVersion p2 = some v)
    (hparams : scanParams p3 = some (m, t, p))
    (hsalt : decodeB64 p4 = some salt)
    (hkey : decodeB64 p5 = some key) :
    (constantTimeCompare key (kdf password salt t m p key.length) = 1 ↔
      key = kdf password salt t m p key.length) ∧
    (key = kdf password salt t m p key.length → Compare kdf a password hash = none) ∧
    (key ≠ kdf password salt t m p key.length →
      Compare kdf a password hash = some CompareError.passwordsDoNotMatch) := by
  have hkeyBytes := decodeB64_bytes p5 key hkey
  have hcandBytes := hkdfBytes password salt t m p key.length
  have hiff := constantTimeCompare_eq_one_iff key (kdf password salt t m p key.length)
    hkeyBytes hcandBytes
  refine ⟨hiff, ?_, ?_⟩
  · intro he
    rw [Compare_parsed kdf a password hash p0 p2 p3 p4 p5 v m t p salt key
      hsplit hver hparams hsalt hkey, if_pos (by rw [matching]; exact hiff.mpr he)]
  · intro hne
    rw [Compare_parsed kdf a password hash p0 p2 p3 p4 p5 v m t p salt key
      hsplit hver hparams hsalt hkey, if_neg]
    rw [matching, hiff]
    exact hne

/-- Modelled from the spec: the value the spec prescribes for the timeCost
field after construction — the last `WithTimeCost` option given, or the
default when none was. -/
def specLastTimeCost (opts : List Argon2IdOption) : Nat :=
  opts.foldl (fun acc o => match o with | .withTimeCost n => n | _ => acc) defaultTimeCost

/-- Modelled from the spec: the last `WithMemoryCost` option, or the
default. -/
def specLastMemoryCost (opts : List Argon2IdOption) : Nat :=
  opts.foldl (fun acc o => match o with | .withMemoryCost n => n | _ => acc) defaultMemoryCost

/-- Modelled from the spec: the last `WithParallelismCost` option, or the
process default (number of CPUs). -/
def specLastParallelismCost (numCPU : Nat) (opts : List Argon2IdOption) : Nat :=
  opts.foldl (fun acc o => match o with | .withParallelismCost n => n | _ => acc) numCPU

/-- Modelled from the spec: the last `WithSaltLength` option, or the
default. -/
def specLastSaltLength (opts : List Argon2IdOption) : Nat :=
  opts.foldl (fun acc o => match o with | .withSaltLength n => n | _ => acc) defaultSaltLength

/-- Modelled from the spec: the last `WithKeyLength` option, or the
default. -/
def specLastKeyLength (opts : List Argon2IdOption) : Nat :=
  opts.foldl (fun acc o => match o with | .withKeyLength n => n | _ => acc) defaultKeyLength

theorem foldl_applyOption_timeCost (opts : List Argon2IdOption) (a : Argon2Id) :
    (opts.foldl applyOption a).timeCost =
      opts.foldl (fun acc o => match o with | .withTimeCost n => n | _ => acc) a.timeCost := by
  induction opts generalizing a with
  | nil => rfl
  | cons o opts ih => cases o <;> simp [List.foldl_cons, applyOption, ih]

theorem foldl_applyOption_memoryCost (opts : List Argon2IdOption) (a : Argon2Id) :
    (opts.foldl applyOption a).memoryCost =
      opts.foldl (fun acc o => match o with | .withMemoryCost n => n | _ => acc) a.memoryCost := by
  induction opts generalizing a with
  | nil => rfl
  | cons o opts ih => cases o <;> simp [List.foldl_cons, applyOption, ih]

theorem foldl_applyOption_parallelismCost (opts : List Argon2IdOption) (a : Argon2Id) :
    (opts.foldl applyOption a).parallelismCost =
      opts.foldl (fun acc o => match o with | .withParallelismCost n => n | _ => acc)
        a.parallelismCost := by
  induction opts generalizing a with
  | nil => rfl
  | cons o opts ih => cases o <;> simp [List.foldl_cons, applyOption, ih]

theorem foldl_applyOption_saltLength (opts : List Argon2IdOption) (a : Argon2Id) :
    (opts.foldl applyOption a).saltLength =
      opts.foldl (fun acc o => match o with | .withSaltLength n => n | _ => acc) a.saltLength := by
  induction opts generalizing a with
  | nil => rfl
  | cons o opts ih => cases o <;> simp [List.foldl_cons, applyOption, ih]

theorem foldl_applyOption_keyLength (opts : List Argon2IdOption) (a : Argon2Id) :
    (opts.foldl applyOption a).keyLength =
      opts.foldl (fun acc o => match o with | .withKeyLength n => n | _ => acc) a.keyLength := by
  induction opts generalizing a with
  | nil => rfl
  | cons o opts ih => cases o <;> simp [List.foldl_cons, applyOption, ih]

/-- C9: `New` starts from the five defaults (timeCost 2, memoryCost 65536,
parallelismCost the CPU count, saltLength 16, keyLength 32) and applies the
options in order, each writing exactly its own field with no validation: for
every option list, each resulting field equals the last option given for
that field, or the default when none was given. -/
theorem C9_newDefaultsThenOptions (numCPU : Nat) (opts : List Argon2IdOption) :
    New numCPU [] =
      { timeCost := 2, memoryCost := 65536, parallelismCost := numCPU,
        saltLength := 16, keyLength := 32 } ∧
    (New numCPU opts).timeCost = specLastTimeCost opts ∧
    (New numCPU opts).memoryCost = specLastMemoryCost opts ∧
    (New numCPU opts).parallelismCost = specLastParallelismCost numCPU opts ∧
    (New numCPU opts).saltLength = specLastSaltLength opts ∧
    (New numCPU opts).keyLength = specLastKeyLength opts := by
  refine ⟨rfl, ?_, ?_, ?_, ?_, ?_⟩
  · exact foldl_applyOption_timeCost opts _
  · exact foldl_applyOption_memoryCost opts _
  · exact foldl_applyOption_parallelismCost opts _
  · exact foldl_applyOption_saltLength opts _
  · exact foldl_applyOption_keyLength opts _

/-- C10: `Compare` scans the version segment but never uses the scanned
value: two hashes that agree on every segment except the version segment
(and the unchecked leading segment), both version segments scanning
successfully as `v=<integer>`, always compare identically — for every
password, every receiver, and arbitrary scanned values (such as 0 in place
of 19). -/
theorem C10_versionIgnored (kdf : KDF) (a : Argon2Id) (password : List Nat)
    (hashA hashB : List Char) (p0A p0B p2A p2B p3 p4 p5 : List Char) (vA vB : Int)
    (hsplitA : splitOnDollar hashA = [p0A, algorithm, p2A, p3, p4, p5])
    (hsplitB : splitOnDollar hashB = [p0B, algorithm, p2B, p3, p4, p5])
    (hverA : scanVersion p2A = some vA) (hverB : scanVersion p2B = some vB) :
    Compare kdf a password hashA = Compare kdf a password hashB := by
  rw [Compare_of_split kdf a password hashA p0A algorithm p2A p3 p4 p5 hsplitA,
    Compare_of_split kdf a password hashB p0B algorithm p2B p3 p4 p5 hsplitB,
    compareParts_algorithm_ok, compareParts_algorithm_ok,
    compareVersionStep_some kdf password p2A p3 p4 p5 vA hverA,
    compareVersionStep_some kdf password p2B p3 p4 p5 vB hverB]

/-! ## Witnesses: the hypotheses of the claim theorems are satisfiable -/

/-- Witness for C1 at a concrete configuration, password and salt. -/
theorem C1_roundTrip_witness :
    ([5] : List Nat).length = (⟨1, 1, 1, 1, 1⟩ : Argon2Id).saltLength ∧
    Generate kdfModel ⟨1, 1, 1, 1, 1⟩ [7, 8] [5] =
      some (generateHash kdfModel ⟨1, 1, 1, 1, 1⟩ [7, 8] [5]) ∧
    Compare kdfModel ⟨9, 9, 9, 9, 9⟩ [7, 8]
      (generateHash kdfModel ⟨1, 1, 1, 1, 1⟩ [7, 8] [5]) = none := by
  have h := C1_roundTrip kdfModel kdfModel_length kdfModel_bytes ⟨1, 1, 1, 1, 1⟩
    ⟨9, 9, 9, 9, 9⟩ [7, 8] [5] (by decide) (by decide) (by decide) (by decide) (by decide)
  exact ⟨by decide, h.1, h.2⟩

/-- Witness for C2 at a concrete configuration, password and salt. -/
theorem C2_canonicalFormat_witness :
    ([3] : List Nat).length = (⟨1, 1, 1, 1, 2⟩ : Argon2Id).saltLength ∧
    splitOnDollar (generateHash kdfModel ⟨1, 1, 1, 1, 2⟩ [4] [3]) =
      [[], algorithm, versionSegment argon2Version, paramsSegment 1 1 1,
        encodeB64 [3], encodeB64 (kdfModel [4] [3] 1 1 1 2)] ∧
    scanVersion (versionSegment argon2Version) = some (argon2Version : Int) ∧
    scanParams (paramsSegment 1 1 1) = some (1, 1, 1) ∧
    decodeB64 (encodeB64 [3]) = some [3] ∧
    decodeB64 (encodeB64 (kdfModel [4] [3] 1 1 1 2)) = some (kdfModel [4] [3] 1 1 1 2) ∧
    (kdfModel [4] [3] 1 1 1 2).length = 2 := by
  have h := C2_canonicalFormat kdfModel kdfModel_length kdfModel_bytes ⟨1, 1, 1, 1, 2⟩
    [4] [3] (by decide) (by decide) (by decide) (by decide) (by decide)
  exact ⟨by decide, h.1, h.2.1, h.2.2.1, h.2.2.2.1, h.2.2.2.2.2.1, h.2.2.2.2.2.2⟩

/-- Witness for C3 at concrete distinct passwords whose model-KDF keys
differ. -/
theorem C3_wrongPassword_witness :
    kdfModel [1] [0] 1 1 1 1 ≠ kdfModel [2] [0] 1 1 1 1 ∧
    Compare kdfModel ⟨9, 9, 9, 9, 9⟩ [2] (generateHash kdfModel ⟨1, 1, 1, 1, 1⟩ [1] [0]) =
      some CompareError.passwordsDoNotMatch := by
  have h := C3_wrongPassword kdfModel kdfModel_length kdfModel_bytes ⟨1, 1, 1, 1, 1⟩
    ⟨9, 9, 9, 9, 9⟩ [1] [2] [0] (by decide) (by decide) (by decide) (by decide)
    (by decide) (by decide)
  exact ⟨by decide, h.1⟩

/-- Witness for C4 at a one-segment string and at a six-segment string with
the tag `argon2i`. -/
theorem C4_formatRejection_witness :
    (splitOnDollar "abc".data).length ≠ 6 ∧
    Compare kdfModel ⟨1, 1, 1, 1, 1⟩ [1] "abc".data = some CompareError.malformedParts ∧
    "argon2i".data ≠ algorithm ∧
    Compare kdfModel ⟨1, 1, 1, 1, 1⟩ [1] "$argon2i$v=19$m=1,t=1,p=1$AA$AA".data =
      some CompareError.malformedAlgorithm := by
  refine ⟨by decide, ?_, by decide, ?_⟩
  · exact (C4_formatRejection kdfModel ⟨1, 1, 1, 1, 1⟩ [1] "abc".data).1 (by decide)
  · exact (C4_formatRejection kdfModel ⟨1, 1, 1, 1, 1⟩ [1]
      "$argon2i$v=19$m=1,t=1,p=1$AA$AA".data).2.1 [] "argon2i".data "v=19".data
      "m=1,t=1,p=1".data "AA".data "AA".data (by decide) (by decide)

/-- Witness for C5 at a concrete parsed hash whose stored key is one byte. -/
theorem C5_recomputeWithStoredKeyLength_witness :
    decodeB64 "AA".data = some [0] ∧
    (kdfModel [6] [0] 1 1 1 ([0] : List Nat).length).length = ([0] : List Nat).length ∧
    Compare kdfModel ⟨1, 1, 1, 1, 1⟩ [6] "$argon2id$v=19$m=1,t=1,p=1$AA$AA".data =
      if constantTimeCompare [0] (kdfModel [6] [0] 1 1 1 ([0] : List Nat).length) = matching
      then none else some CompareError.passwordsDoNotMatch := by
  have h := C5_recomputeWithStoredKeyLength kdfModel kdfModel_length ⟨1, 1, 1, 1, 1⟩ [6]
    "$argon2id$v=19$m=1,t=1,p=1$AA$AA".data [] "v=19".data "m=1,t=1,p=1".data
    "AA".data "AA".data 19 1 1 1 [0] [0] (by decide) (by decide) (by decide)
    (by decide) (by decide)
  exact ⟨by decide, h.1, h.2⟩

/-- Witness for C8 at a concrete parsed hash. -/
theorem C8_constantTimeComparison_witness :
    decodeB64 "AA".data = some [0] ∧
    (constantTimeCompare [0] (kdfModel [3] [0] 1 2 1 ([0] : List Nat).length) = 1 ↔
      ([0] : List Nat) = kdfModel [3] [0] 1 2 1 ([0] : List Nat).length) ∧
    (([0] : List Nat) = kdfModel [3] [0] 1 2 1 ([0] : List Nat).length →
      Compare kdfModel ⟨1, 1, 1, 1, 1⟩ [3] "$argon2id$v=19$m=2,t=1,p=1$AA$AA".data = none) ∧
    (([0] : List Nat) ≠ kdfModel [3] [0] 1 2 1 ([0] : List Nat).length →
      Compare kdfModel ⟨1, 1, 1, 1, 1⟩ [3] "$argon2id$v=19$m=2,t=1,p=1$AA$AA".data =
        some CompareError.passwordsDoNotMatch) := by
  have h := C8_constantTimeComparison kdfModel kdfModel_bytes ⟨1, 1, 1, 1, 1⟩ [3]
    "$argon2id$v=19$m=2,t=1,p=1$AA$AA".data [] "v=19".data "m=2,t=1,p=1".data
    "AA".data "AA".data 19 2 1 1 [0] [0] (by decide) (by decide) (by decide)
    (by decide) (by decide)
  exact ⟨by decide, h.1, h.2.1, h.2.2⟩

/-- Witness for C10 at concrete hashes with versions 19 and 0. -/
theorem C10_versionIgnored_witness :
    scanVersion "v=19".data = some 19 ∧
    scanVersion "v=0".data = some 0 ∧
    Compare kdfModel ⟨1, 1, 1, 1, 1⟩ [2] "$argon2id$v=19$m=1,t=1,p=1$AA$AA".data =
      Compare kdfModel ⟨1, 1, 1, 1, 1⟩ [2] "$argon2id$v=0$m=1,t=1,p=1$AA$AA".data := by
  refine ⟨by decide, by decide, ?_⟩
  exact C10_versionIgnored kdfModel ⟨1, 1, 1, 1, 1⟩ [2]
    "$argon2id$v=19$m=1,t=1,p=1$AA$AA".data "$argon2id$v=0$m=1,t=1,p=1$AA$AA".data
    [] [] "v=19".data "v=0".data "m=1,t=1,p=1".data "AA".data "AA".data 19 0
    (by decide) (by decide) (by decide) (by decide)

end Argon2id
